import Mathlib

set_option maxRecDepth 100000
set_option maxHeartbeats 3200000

/-!
Verification of `blocklib` (dune-official/blocklib).

A shallow embedding of `src/blocklib.py`: a minimal educational blockchain
("Ledger" in the spec).  The Python class `Blockchain` keeps a list `chain`
of block dictionaries and a pending batch `file` of record dictionaries.
Blocks are sealed by `new_block`, records queued by `new_transaction`,
proof-of-work is a linear scan (`proof_of_work`) over the predicate
`valid_proof` (SHA-256 of the decimal concatenation must start with four
zero hex digits), and `valid_chain` walks hash/proof links.

Embedding conventions:
* Python `int` becomes `Int` (proof values), list indices and lengths `Nat`.
* Wall-clock time (`time()`) is an external effect: each operation that
  stamps a block takes the current time `now` as an explicit argument.
  The float timestamp is modelled as a `Nat` tick serialized in decimal
  (no claim depends on the textual form of the timestamp).
* Record dictionaries are modelled as string-keyed string maps — the shape
  of the only record the core itself creates (the miner credit).
* Fallible Python code (IndexError on an empty chain) returns `Option`;
  the unbounded `while` loop of `proof_of_work` is given explicit fuel and
  returns `none` when the search does not finish within the fuel.
* SHA-256 is implemented executably over byte lists (`Nat < 256`), so all
  predicates evaluate on concrete inputs.
-/

namespace Blocklib

/-! ## SHA-256 over byte lists -/

/-- The word modulus 2 ^ 32. -/
def w32 : Nat := 4294967296

/-- Addition modulo 2 ^ 32. -/
def add32 (a b : Nat) : Nat := (a + b) % w32

/-- Rotation of a word to the right by `n` bits. -/
def rotr (n w : Nat) : Nat := (w >>> n) ||| ((w <<< (32 - n)) % w32)

/-- Xor of three words. -/
def xor3 (a b c : Nat) : Nat := (a ^^^ b) ^^^ c

def bigSigma0 (x : Nat) : Nat := xor3 (rotr 2 x) (rotr 13 x) (rotr 22 x)

def bigSigma1 (x : Nat) : Nat := xor3 (rotr 6 x) (rotr 11 x) (rotr 25 x)

def smallSigma0 (x : Nat) : Nat := xor3 (rotr 7 x) (rotr 18 x) (x >>> 3)

def smallSigma1 (x : Nat) : Nat := xor3 (rotr 17 x) (rotr 19 x) (x >>> 10)

/-- The `Ch` function of the SHA-256 round. -/
def chFn (e f g : Nat) : Nat := (e &&& f) ^^^ ((e ^^^ 4294967295) &&& g)

/-- The `Maj` function of the SHA-256 round. -/
def majFn (a b c : Nat) : Nat := ((a &&& b) ^^^ (a &&& c)) ^^^ (b &&& c)

/-- The 64 SHA-256 round constants. -/
def shaK : List Nat :=
  [1116352408, 1899447441, 3049323471, 3921009573, 961987163, 1508970993,
   2453635748, 2870763221, 3624381080, 310598401, 607225278, 1426881987,
   1925078388, 2162078206, 2614888103, 3248222580, 3835390401, 4022224774,
   264347078, 604807628, 770255983, 1249150122, 1555081692, 1996064986,
   2554220882, 2821834349, 2952996808, 3210313671, 3336571891, 3584528711,
   113926993, 338241895, 666307205, 773529912, 1294757372, 1396182291,
   1695183700, 1986661051, 2177026350, 2456956037, 2730485921, 2820302411,
   3259730800, 3345764771, 3516065817, 3600352804, 4094571909, 275423344,
   430227734, 506948616, 659060556, 883997877, 958139571, 1322822218,
   1537002063, 1747873779, 1955562222, 2024104815, 2227730452, 2361852424,
   2428436474, 2756734187, 3204031479, 3329325298]

/-- The initial SHA-256 hash state. -/
def shaH0 : List Nat :=
  [1779033703, 3144134277, 1013904242, 2773480762,
   1359893119, 2600822924, 528734635, 1541459225]

/-- Big-endian byte expansion: `beBytes n v` is the `n` bytes of `v`, most
significant first. -/
def beBytes : Nat → Nat → List Nat
  | 0, _ => []
  | n + 1, v => beBytes n (v >>> 8) ++ [v &&& 255]

/-- SHA-256 padding: append `0x80`, zero bytes to 56 mod 64, then the
64-bit big-endian bit length. -/
def padBytes (m : List Nat) : List Nat :=
  let L := m.length
  let k := (64 + 56 - ((L + 1) % 64)) % 64
  m ++ [0x80] ++ List.replicate k 0 ++ beBytes 8 (8 * L)

/-- Big-endian 32-bit words from a byte list. -/
def bytesToWords : List Nat → List Nat
  | a :: b :: c :: d :: rest => (((a * 256 + b) * 256 + c) * 256 + d) :: bytesToWords rest
  | _ => []

/-- Split into 64-byte chunks (fuel-driven; the fuel is the list length,
which always suffices). -/
def chunk64Go : Nat → List Nat → List (List Nat)
  | 0, _ => []
  | _, [] => []
  | fuel + 1, l => l.take 64 :: chunk64Go fuel (l.drop 64)

def chunk64 (l : List Nat) : List (List Nat) := chunk64Go l.length l

/-- Message-schedule extension; `acc` holds the words most recent first, so
`w[i-2]`, `w[i-7]`, `w[i-15]`, `w[i-16]` sit at positions 1, 6, 14, 15. -/
def extendGo : Nat → List Nat → List Nat
  | 0, acc => acc
  | n + 1, acc =>
    let nxt := add32 (add32 (smallSigma1 (acc.getD 1 0)) (acc.getD 6 0))
                     (add32 (smallSigma0 (acc.getD 14 0)) (acc.getD 15 0))
    extendGo n (nxt :: acc)

/-- Extend the 16 chunk words to the 64 schedule words. -/
def schedule (ws : List Nat) : List Nat := (extendGo 48 ws.reverse).reverse

/-- One SHA-256 round on the 8-register state. -/
def roundFn : Nat × Nat × Nat × Nat × Nat × Nat × Nat × Nat → Nat → Nat →
    Nat × Nat × Nat × Nat × Nat × Nat × Nat × Nat
  | (a, b, c, d, e, f, g, h), k, w =>
    let t1 := add32 h (add32 (bigSigma1 e) (add32 (chFn e f g) (add32 k w)))
    let t2 := add32 (bigSigma0 a) (majFn a b c)
    (add32 t1 t2, a, b, c, add32 d t1, e, f, g)

def compressGo : List (Nat × Nat) → Nat × Nat × Nat × Nat × Nat × Nat × Nat × Nat →
    Nat × Nat × Nat × Nat × Nat × Nat × Nat × Nat
  | [], st => st
  | (k, w) :: rest, st => compressGo rest (roundFn st k w)

/-- Process one 64-byte chunk, updating the 8-word hash state. -/
def processChunk (hs : List Nat) (chunkBytes : List Nat) : List Nat :=
  let ws := schedule (bytesToWords chunkBytes)
  match hs with
  | [h0, h1, h2, h3, h4, h5, h6, h7] =>
    match compressGo (shaK.zip ws) (h0, h1, h2, h3, h4, h5, h6, h7) with
    | (a, b, c, d, e, f, g, h) =>
      [add32 h0 a, add32 h1 b, add32 h2 c, add32 h3 d,
       add32 h4 e, add32 h5 f, add32 h6 g, add32 h7 h]
  | _ => hs

/-- The eight 32-bit words of the SHA-256 digest of a byte list. -/
def sha256Words (m : List Nat) : List Nat :=
  (chunk64 (padBytes m)).foldl processChunk shaH0

/-- Lowercase hex digit. -/
def hexDigitChar (n : Nat) : Char :=
  if n < 10 then Char.ofNat (48 + n) else Char.ofNat (87 + n)

/-- Eight lowercase hex characters of a 32-bit word, most significant first. -/
def wordHex (w : Nat) : List Char :=
  (List.range 8).map (fun i => hexDigitChar ((w >>> (28 - 4 * i)) &&& 15))

/-- The lowercase hex digest of SHA-256, as `hashlib.sha256(...).hexdigest()`. -/
def sha256hex (m : List Nat) : String :=
  String.mk (((sha256Words m).map wordHex).flatten)

/-- UTF-8 bytes of one character. -/
def utf8Bytes (c : Char) : List Nat :=
  let n := c.toNat
  if n < 0x80 then [n]
  else if n < 0x800 then [0xC0 ||| (n >>> 6), 0x80 ||| (n &&& 63)]
  else if n < 0x10000 then
    [0xE0 ||| (n >>> 12), 0x80 ||| ((n >>> 6) &&& 63), 0x80 ||| (n &&& 63)]
  else
    [0xF0 ||| (n >>> 18), 0x80 ||| ((n >>> 12) &&& 63),
     0x80 ||| ((n >>> 6) &&& 63), 0x80 ||| (n &&& 63)]

/-- UTF-8 bytes of a string, as Python's `str.encode()`. -/
def strBytes (s : String) : List Nat := (s.data.map utf8Bytes).flatten

/-! ## Data model

A Python record dictionary is modelled as a string-keyed string map in
insertion order (the shape of every record this repository itself builds),
a block dictionary as a structure with the five fixed keys of
`Blockchain.new_block`. -/

/-- One unit of application data: an ordered string-keyed string map. -/
abbrev Record := List (String × String)

/-- A sealed block, the dictionary built by `Blockchain.new_block`.  The
Python key `file` holds the records sealed into the block. -/
structure Block where
  index : Nat
  timestamp : Nat
  file : List Record
  proof : Int
  previous_hash : String
deriving DecidableEq

/-- The `Blockchain` object state: the list `chain` of sealed blocks and
the pending batch `file` of records awaiting the next block. -/
structure Blockchain where
  chain : List Block
  file : List Record
deriving DecidableEq

/-! ## Canonical JSON serialization

`Blockchain.hash` is `sha256(json.dumps(block, sort_keys=True).encode())`.
`json.dumps` with its default separators prints `", "` between items and
`": "` after keys, sorts every dictionary's keys, and escapes strings to
ASCII (`ensure_ascii=True`). -/

/-- Four lowercase hex characters of a 16-bit value. -/
def hex4 (n : Nat) : String :=
  String.mk ((List.range 4).map (fun i => hexDigitChar ((n >>> (12 - 4 * i)) &&& 15)))

/-- JSON string escaping as `json.dumps` (ASCII output): named escapes for
the common control characters, `\uXXXX` for other controls and for
non-ASCII characters (surrogate pairs beyond the BMP). -/
def escapeChar (c : Char) : String :=
  if c = '"' then "\\\""
  else if c = '\\' then "\\\\"
  else if c = '\n' then "\\n"
  else if c = '\t' then "\\t"
  else if c = '\r' then "\\r"
  else if c.toNat = 8 then "\\b"
  else if c.toNat = 12 then "\\f"
  else if c.toNat < 32 then "\\u" ++ hex4 c.toNat
  else if c.toNat < 128 then String.singleton c
  else if c.toNat < 0x10000 then "\\u" ++ hex4 c.toNat
  else
    let v := c.toNat - 0x10000
    "\\u" ++ hex4 (0xD800 + (v >>> 10)) ++ "\\u" ++ hex4 (0xDC00 + (v &&& 1023))

/-- Quoted JSON string literal. -/
def jsonStr (s : String) : String :=
  "\"" ++ String.join (s.data.map escapeChar) ++ "\""

/-- Insertion into a key-sorted association list. -/
def insertByKey (p : String × String) : List (String × String) → List (String × String)
  | [] => [p]
  | q :: rest => if p.1 ≤ q.1 then p :: q :: rest else q :: insertByKey p rest

/-- Key-sorting of an association list, as `sort_keys=True` does per
dictionary. -/
def sortByKey : List (String × String) → List (String × String)
  | [] => []
  | p :: rest => insertByKey p (sortByKey rest)

/-- Comma-space separated concatenation, the default `json.dumps` item
separator. -/
def commaSep : List String → String
  | [] => ""
  | [s] => s
  | s :: t :: rest => s ++ ", " ++ commaSep (t :: rest)

/-- Serialization of one record dictionary, keys sorted. -/
def jsonRecord (r : Record) : String :=
  "\x7b" ++ commaSep ((sortByKey r).map (fun p => jsonStr p.1 ++ ": " ++ jsonStr p.2)) ++ "\x7d"

/-- Serialization of a JSON array from already-serialized elements. -/
def jsonArr (xs : List String) : String := "[" ++ commaSep xs ++ "]"

/-- Serialization of a block dictionary with keys in sorted order
(`file`, `index`, `previous_hash`, `proof`, `timestamp`), exactly as
`json.dumps(block, sort_keys=True)`. -/
def jsonBlock (b : Block) : String :=
  "\x7b\"file\": " ++ jsonArr (b.file.map jsonRecord) ++
  ", \"index\": " ++ toString b.index ++
  ", \"previous_hash\": " ++ jsonStr b.previous_hash ++
  ", \"proof\": " ++ toString b.proof ++
  ", \"timestamp\": " ++ toString b.timestamp ++ "\x7d"

/-- The static method `Blockchain.hash`: SHA-256 hex digest of the
canonical (sorted-keys) JSON serialization of a block. -/
def hash (block : Block) : String := sha256hex (strBytes (jsonBlock block))

/-! ## Operations of the `Blockchain` class -/

/-- The static method `Blockchain.valid_proof`: the SHA-256 hex digest of
the decimal texts of the two integers, concatenated with no separator
(Python `f-string`), must start with four zero hex characters. -/
def valid_proof (last_proof proof : Int) : Bool :=
  let guess := toString last_proof ++ toString proof
  let guess_hash := sha256hex (strBytes guess)
  guess_hash.take 4 == "0000"

/-- The body of the `while` loop of `Blockchain.proof_of_work`, scanning
candidates upward from `p` with explicit fuel (the Python loop is
unbounded; `none` models not finishing within the fuel). -/
def proof_of_work_go (last_proof : Int) : Int → Nat → Option Int
  | _, 0 => none
  | p, fuel + 1 =>
    if valid_proof last_proof p then some p else proof_of_work_go last_proof (p + 1) fuel

/-- The method `Blockchain.proof_of_work`: linear scan from candidate 0 upward until
`valid_proof` holds. -/
def proof_of_work (last_proof : Int) (fuel : Nat) : Option Int :=
  proof_of_work_go last_proof 0 fuel

/-- The method `Blockchain.new_block`: seal the pending batch into a new block and
reset the batch.  A supplied `previous_hash` is used only when truthy
(Python `previous_hash or self.hash(self.chain[-1])`, so `none` and the
empty string both fall back to hashing the last block); the fallback on an
empty chain is the `IndexError` of `self.chain[-1]`, modelled as `none`. -/
def new_block (bc : Blockchain) (now : Nat) (proof : Int) (previous_hash : Option String) :
    Option (Block × Blockchain) :=
  let truthy : Option String :=
    match previous_hash with
    | some s => if s = "" then none else some s
    | none => none
  let ph : Option String :=
    match truthy with
    | some s => some s
    | none => (bc.chain.getLast?).map hash
  match ph with
  | none => none
  | some p =>
    let block : Block :=
      { index := bc.chain.length + 1, timestamp := now, file := bc.file,
        proof := proof, previous_hash := p }
    some (block, { chain := bc.chain ++ [block], file := [] })

/-- The constructor `Blockchain.__init__`: empty chain and batch, then the genesis block
sealed with `proof=2`, `previous_hash='1'`.  The fallback branch is
unreachable since `"1"` is truthy. -/
def Blockchain.init (now : Nat) : Blockchain :=
  match new_block { chain := [], file := [] } now 2 (some "1") with
  | some (_, bc) => bc
  | none => { chain := [], file := [] }

/-- The classmethod `Blockchain.fromchain` (the spec's `replace_chain`):
construct a fresh instance (re-running genesis creation), then overwrite
its chain wholesale with `other_chain`. -/
def fromchain (now : Nat) (other_chain : List Block) : Blockchain :=
  { Blockchain.init now with chain := other_chain }

/-- The property `Blockchain.last_block`: `self.chain[-1]`, `none` on an
empty chain (Python `IndexError`). -/
def last_block (bc : Blockchain) : Option Block := bc.chain.getLast?

/-- The method `Blockchain.new_transaction` (the spec's `add_record`): append the
record to the pending batch and return the index the next block would
carry.  Python appends first and only then reads `last_block`, so on an
empty chain the read raises; the raise is modelled as `none`. -/
def new_transaction (bc : Blockchain) (values : Record) : Option (Nat × Blockchain) :=
  let bc1 : Blockchain := { bc with file := bc.file ++ [values] }
  match bc1.chain.getLast? with
  | none => none
  | some lb => some (lb.index + 1, bc1)

/-- The mining result: Python returns `(True, block)` or `(False, 0)`. -/
inductive MineResult where
  | success (block : Block)
  | failure
deriving DecidableEq

/-- The synthetic credit record `mine` appends for a truthy miner label. -/
def minerRecord (miner : String) : Record :=
  [("This block has been proudly mined by", miner)]

/-- The method `Blockchain.mine`: run proof-of-work on the last block's proof,
re-check the found proof, seal a new block with the hash of the last
block, then credit a truthy miner label into the fresh pending batch.
`none` models the Python computations that do not return (empty-chain
`IndexError`, or a proof-of-work search that exceeds the fuel). -/
def mine (bc : Blockchain) (now : Nat) (fuel : Nat) (miner : Option String) :
    Option (MineResult × Blockchain) :=
  match last_block bc with
  | none => none
  | some lb =>
    match proof_of_work lb.proof fuel with
    | none => none
    | some proof =>
      if valid_proof lb.proof proof then
        let prev_hash := hash lb
        match new_block bc now proof (some prev_hash) with
        | none => none
        | some (block, bc1) =>
          match miner with
          | some m =>
            if m ≠ "" then
              match new_transaction bc1 (minerRecord m) with
              | none => none
              | some (_, bc2) => some (MineResult.success block, bc2)
            else some (MineResult.success block, bc1)
          | none => some (MineResult.success block, bc1)
      else
        some (MineResult.failure, bc)

/-- The body of the `while` walk of `Blockchain.valid_chain`, carrying the
previous block. -/
def valid_chain_go : Block → List Block → Bool
  | _, [] => true
  | lastb, b :: rest =>
    if b.previous_hash ≠ hash lastb then false
    else if ¬ (valid_proof lastb.proof b.proof = true) then false
    else valid_chain_go b rest

/-- The method `Blockchain.valid_chain`: walk consecutive pairs from block 0 checking
the hash link and the proof predicate.  Reading `self.chain[0]` on an
empty chain raises, modelled as `none`. -/
def valid_chain (bc : Blockchain) : Option Bool :=
  match bc.chain with
  | [] => none
  | b :: rest => some (valid_chain_go b rest)

/-- The method `Blockchain.full_chain`: the chain and its length. -/
def full_chain (bc : Blockchain) : List Block × Nat := (bc.chain, bc.chain.length)

/-- Repeated `new_transaction` calls, threading the state (used to speak
about "a sequence of add_record calls"). -/
def addAll (bc : Blockchain) : List Record → Option Blockchain
  | [] => some bc
  | r :: rest =>
    match new_transaction bc r with
    | none => none
    | some (_, bc1) => addAll bc1 rest

/-- The pending batch `mine` leaves behind: one credit record for a truthy
miner label, empty otherwise. -/
def creditFile : Option String → List Record
  | some m => if m ≠ "" then [minerRecord m] else []
  | none => []

/-- The per-link check of `valid_chain`: the hash link and the proof
predicate between consecutive blocks. -/
def chainR (x y : Block) : Prop :=
  y.previous_hash = hash x ∧ valid_proof x.proof y.proof = true

/-- Written from the spec's words for `valid_proof`, to be compared with
the embedding of the code: the first four characters of the lowercase
hex-encoded SHA-256 digest of the UTF-8 bytes of the decimal texts of the
two integers, concatenated with no separator, equal `"0000"`. -/
def spec_hash_prefix_ok (last_proof proof : Int) : Prop :=
  (sha256hex (strBytes (toString last_proof ++ toString proof))).data.take 4
    = ['0', '0', '0', '0']

/-- Reachability by the public operations, with arbitrary `fromchain`
arguments (the spec's `replace_chain`). -/
inductive Reach : Blockchain → Prop where
  | base (now : Nat) : Reach (Blockchain.init now)
  | add {bc : Blockchain} (r : Record) {idx : Nat} {bc' : Blockchain} :
      Reach bc → new_transaction bc r = some (idx, bc') → Reach bc'
  | mined {bc : Blockchain} (now fuel : Nat) (miner : Option String)
      {res : MineResult} {bc' : Blockchain} :
      Reach bc → mine bc now fuel miner = some (res, bc') → Reach bc'
  | replaced (now : Nat) (oc : List Block) : Reach (fromchain now oc)

/-- Reachability by the public operations where every `fromchain`
(`replace_chain`) argument is a non-empty chain. -/
inductive ReachNE : Blockchain → Prop where
  | base (now : Nat) : ReachNE (Blockchain.init now)
  | add {bc : Blockchain} (r : Record) {idx : Nat} {bc' : Blockchain} :
      ReachNE bc → new_transaction bc r = some (idx, bc') → ReachNE bc'
  | mined {bc : Blockchain} (now fuel : Nat) (miner : Option String)
      {res : MineResult} {bc' : Blockchain} :
      ReachNE bc → mine bc now fuel miner = some (res, bc') → ReachNE bc'
  | replaced (now : Nat) (oc : List Block) (hne : oc ≠ []) : ReachNE (fromchain now oc)

/-- Reachability by construction followed by repeated (returning) `mine`
calls only. -/
inductive MinedReach : Blockchain → Prop where
  | base (now : Nat) : MinedReach (Blockchain.init now)
  | step {bc : Blockchain} (now fuel : Nat) (miner : Option String)
      {res : MineResult} {bc' : Blockchain} :
      MinedReach bc → mine bc now fuel miner = some (res, bc') → MinedReach bc'

/-! ## Concrete values for witnesses and counterexamples

The genesis proof is 2 and the least `p` with
`valid_proof 2 p` is 69926, far too large to evaluate inside a proof, so
concrete mining runs are exercised on seeded chains instead: the integer
30916 has least valid proof 2 (checked below), which keeps every concrete
proof-of-work scan to a handful of SHA-256 evaluations. -/

/-- Seed block for the C6 witness: its proof value 30916 has least valid
proof 2. -/
def seedBlockC6 : Block := ⟨1, 7, [], 30916, "1"⟩

/-- One-block ledger used by the C6 witness. -/
def seedChainC6 : Blockchain := ⟨[seedBlockC6], []⟩

/-- The block the C6 witness mine seals. -/
def minedBlockC6 : Block := ⟨2, 9, [], 2, hash seedBlockC6⟩

/-- Seed block for the C8 witness and counterexample runs. -/
def seedBlockC8 : Block := ⟨1, 3, [], 30916, "1"⟩

/-- One-block ledger used by the C8 witness and counterexample. -/
def seedChainC8 : Blockchain := ⟨[seedBlockC8], []⟩

/-- The block the C8 runs seal. -/
def minedBlockC8 : Block := ⟨2, 4, [], 2, hash seedBlockC8⟩

/-- First block of the C5 tampering counterexample chain. -/
def tamperB0 : Block := ⟨1, 7, [], 30916, "1"⟩

/-- Second (final) block of the C5 counterexample chain. -/
def tamperB1 : Block := ⟨2, 8, [], 2, hash tamperB0⟩

/-- The final block with its `records` mutated — the mutation `valid_chain`
does not detect. -/
def tamperB1' : Block := ⟨2, 8, [[("note", "a")]], 2, hash tamperB0⟩

/-- A mutation of `tamperB0` (its `proof` changed) used to witness the
amended tamper-detection theorem at a non-final position. -/
def tamperMut : Block := ⟨1, 7, [], 1, "1"⟩

/-! ## Infrastructure lemmas -/

instance : DecidablePred fun p : Block × Block => chainR p.1 p.2 := by
  intro p; unfold chainR; infer_instance

lemma valid_chain_go_iff {l : List Block} {b : Block} :
    valid_chain_go b l = true ↔ List.Chain chainR b l := by
  induction l generalizing b with
  | nil => simp [valid_chain_go]
  | cons x rest ih =>
    rw [valid_chain_go, List.chain_cons]
    by_cases h1 : x.previous_hash = hash b
    · by_cases h2 : valid_proof b.proof x.proof = true
      · simp [h1, h2, ih, chainR]
      · simp [h1, h2, chainR]
    · simp [h1, chainR]

lemma valid_chain_cons (b : Block) (l : List Block) (f : List Record) :
    valid_chain ⟨b :: l, f⟩ = some (valid_chain_go b l) := rfl

lemma valid_chain_eq_some_true_iff {bc : Blockchain} {b : Block} {l : List Block}
    (h : bc.chain = b :: l) :
    valid_chain bc = some true ↔ List.Chain' chainR bc.chain := by
  obtain ⟨ch, f⟩ := bc
  simp only at h
  subst h
  rw [valid_chain_cons, Option.some_inj, valid_chain_go_iff]
  exact Iff.rfl

/-- Soundness and minimality of the proof-of-work scan: when the scan from
`start` returns `p`, the predicate holds at `p` and fails strictly between
`start` and `p`. -/
lemma proof_of_work_go_sound {lp : Int} :
    ∀ {start : Int} {fuel : Nat} {p : Int},
      proof_of_work_go lp start fuel = some p →
      valid_proof lp p = true ∧ start ≤ p ∧
        ∀ q : Int, start ≤ q → q < p → valid_proof lp q = false := by
  intro start fuel
  induction fuel generalizing start with
  | zero => intro p h; simp [proof_of_work_go] at h
  | succ n ih =>
    intro p h
    rw [proof_of_work_go] at h
    by_cases hv : valid_proof lp start = true
    · rw [if_pos hv, Option.some_inj] at h
      subst h
      exact ⟨hv, le_refl _, fun q hq1 hq2 => absurd hq1 (not_le.mpr hq2)⟩
    · rw [if_neg hv] at h
      obtain ⟨h1, h2, h3⟩ := ih h
      refine ⟨h1, by omega, fun q hq1 hq2 => ?_⟩
      rcases eq_or_lt_of_le hq1 with heq | hlt
      · subst heq; exact Bool.not_eq_true _ ▸ (by simpa using hv)
      · exact h3 q (by omega) hq2

/-- Completeness of the proof-of-work scan: a satisfying candidate inside
the fuel window makes the scan return. -/
lemma proof_of_work_go_complete {lp p0 : Int} (hp0 : valid_proof lp p0 = true) :
    ∀ (fuel : Nat) (start : Int), start ≤ p0 → p0 < start + (fuel : Int) →
      ∃ p, proof_of_work_go lp start fuel = some p := by
  intro fuel
  induction fuel with
  | zero => intro start h1 h2; omega
  | succ n ih =>
    intro start h1 h2
    rw [proof_of_work_go]
    by_cases hv : valid_proof lp start = true
    · exact ⟨start, by rw [if_pos hv]⟩
    · have hne : start ≠ p0 := fun he => hv (he ▸ hp0)
      obtain ⟨p, hp⟩ := ih (start + 1) (by omega) (by omega)
      exact ⟨p, by rw [if_neg hv]; exact hp⟩

/-- Evaluation of `new_block` called (as `mine` calls it) with the hash of the actual
last block: the supplied hash is used whether or not it is truthy, because
the fallback recomputes the same value. -/
lemma new_block_last {bc : Blockchain} {lb : Block} (h : bc.chain.getLast? = some lb)
    (now : Nat) (p : Int) :
    new_block bc now p (some (hash lb)) =
      some (⟨bc.chain.length + 1, now, bc.file, p, hash lb⟩,
            ⟨bc.chain ++ [⟨bc.chain.length + 1, now, bc.file, p, hash lb⟩], []⟩) := by
  by_cases he : hash lb = "" <;> simp [new_block, he, h]

/-- Evaluation of a `mine` whose proof-of-work scan returns: the re-check
passes, the freshly sealed block is returned, the chain grows by exactly
that block, and the new pending batch is the miner credit (if any). -/
lemma mine_eq {bc : Blockchain} {lb : Block} {p : Int} {fuel : Nat}
    (hlb : last_block bc = some lb) (hpow : proof_of_work lb.proof fuel = some p)
    (now : Nat) (miner : Option String) :
    mine bc now fuel miner =
      some (MineResult.success ⟨bc.chain.length + 1, now, bc.file, p, hash lb⟩,
            ⟨bc.chain ++ [⟨bc.chain.length + 1, now, bc.file, p, hash lb⟩],
             creditFile miner⟩) := by
  have hvp : valid_proof lb.proof p = true := (proof_of_work_go_sound hpow).1
  cases miner with
  | none => simp [mine, hlb, hpow, hvp, new_block_last hlb now p, creditFile]
  | some m =>
    by_cases hm : m = ""
    · subst hm
      simp [mine, hlb, hpow, hvp, new_block_last hlb now p, creditFile]
    · simp [mine, hlb, hpow, hvp, new_block_last hlb now p, creditFile, hm,
        new_transaction, List.getLast?_concat]

/-- Inversion of a returning `mine`: the scan found a proof, the result is
the freshly sealed block, and the state is as `mine_eq` computes it. -/
lemma mine_success {bc : Blockchain} {now fuel : Nat} {miner : Option String}
    {res : MineResult} {bc' : Blockchain}
    (h : mine bc now fuel miner = some (res, bc')) :
    ∃ lb p, last_block bc = some lb ∧ proof_of_work lb.proof fuel = some p ∧
      valid_proof lb.proof p = true ∧
      res = MineResult.success ⟨bc.chain.length + 1, now, bc.file, p, hash lb⟩ ∧
      bc' = ⟨bc.chain ++ [⟨bc.chain.length + 1, now, bc.file, p, hash lb⟩],
             creditFile miner⟩ := by
  cases hlb : last_block bc with
  | none => simp [mine, hlb] at h
  | some lb =>
    cases hpow : proof_of_work lb.proof fuel with
    | none => simp [mine, hlb, hpow] at h
    | some p =>
      rw [mine_eq hlb hpow now miner, Option.some_inj] at h
      injection h with h1 h2
      exact ⟨lb, p, rfl, hpow, (proof_of_work_go_sound hpow).1, h1.symm, h2.symm⟩

/-- Evaluation of `new_transaction` on a non-empty chain. -/
lemma new_transaction_eq {bc : Blockchain} {lb : Block}
    (h : bc.chain.getLast? = some lb) (r : Record) :
    new_transaction bc r = some (lb.index + 1, ⟨bc.chain, bc.file ++ [r]⟩) := by
  simp [new_transaction, h]

/-- Evaluation of `addAll` on a non-empty chain: the chain is untouched
and the records land at the end of the pending batch, in order. -/
lemma addAll_eq (recs : List Record) :
    ∀ (bc : Blockchain), bc.chain ≠ [] →
      addAll bc recs = some ⟨bc.chain, bc.file ++ recs⟩ := by
  induction recs with
  | nil => intro bc _; simp [addAll]
  | cons r rest ih =>
    intro bc hne
    obtain ⟨lb, hlb⟩ := Option.isSome_iff_exists.mp (List.getLast?_isSome.mpr hne)
    simp only [addAll, new_transaction_eq hlb r]
    rw [ih ⟨bc.chain, bc.file ++ [r]⟩ hne]
    simp

/-- The fresh ledger: the genesis block alone, empty pending batch. -/
lemma init_eq (now : Nat) :
    Blockchain.init now = ⟨[⟨1, now, [], 2, "1"⟩], []⟩ := rfl

/-- Inversion of `addAll`: the chain is untouched and the pending batch
grows by exactly the added records. -/
lemma addAll_spec : ∀ {recs : List Record} {bc bc1 : Blockchain},
    addAll bc recs = some bc1 → bc1.chain = bc.chain ∧ bc1.file = bc.file ++ recs := by
  intro recs
  induction recs with
  | nil => intro bc bc1 h; rw [addAll, Option.some_inj] at h; simp [← h]
  | cons r rest ih =>
    intro bc bc1 h
    rw [addAll] at h
    cases ht : new_transaction bc r with
    | none => rw [ht] at h; cases h
    | some v =>
      rw [ht] at h
      obtain ⟨idx, bc2⟩ := v
      obtain ⟨h1, h2⟩ := ih h
      have hlast : ∃ lb, bc.chain.getLast? = some lb := by
        unfold new_transaction at ht
        cases hg : bc.chain.getLast? with
        | none => simp [hg] at ht
        | some lb => exact ⟨lb, rfl⟩
      obtain ⟨lb, hlb⟩ := hlast
      rw [new_transaction_eq hlb r, Option.some_inj] at ht
      injection ht with ht1 ht2
      rw [← ht2] at h1 h2
      exact ⟨h1, by simpa using h2⟩

lemma valid_chain_eq_some_false_iff {bc : Blockchain} {b : Block} {l : List Block}
    (h : bc.chain = b :: l) :
    valid_chain bc = some false ↔ ¬ List.Chain' chainR bc.chain := by
  obtain ⟨ch, f⟩ := bc
  simp only at h
  subst h
  rw [valid_chain_cons, Option.some_inj]
  have := valid_chain_go_iff (l := l) (b := b)
  cases hgo : valid_chain_go b l with
  | true => simpa [hgo] using this
  | false => rw [hgo] at this; simpa [hgo] using fun hc => (this.mpr hc)

/-- Link extraction from `Chain'` at explicit positions. -/
lemma chain'_rel {α : Type _} {R : α → α → Prop} :
    ∀ {l : List α}, List.Chain' R l →
      ∀ (i : Nat) (x y : α), l[i]? = some x → l[i + 1]? = some y → R x y := by
  intro l
  induction l with
  | nil => intro _ i x y hx _; simp at hx
  | cons a t ih =>
    intro hc i x y hx hy
    cases i with
    | zero =>
      cases t with
      | nil => simp at hy
      | cons b t2 =>
        simp at hx hy
        subst hx
        subst hy
        exact (List.chain'_cons.mp hc).1
    | succ n =>
      exact ih (List.Chain'.tail hc) n x y (by simpa using hx) (by simpa using hy)

/-- Inversion of `new_transaction`: the chain is untouched, the record is
appended to the pending batch. -/
lemma new_transaction_inv {bc : Blockchain} {r : Record} {idx : Nat} {bc1 : Blockchain}
    (h : new_transaction bc r = some (idx, bc1)) :
    bc1.chain = bc.chain ∧ bc1.file = bc.file ++ [r] := by
  cases hg : bc.chain.getLast? with
  | none => simp [new_transaction, hg] at h
  | some lb =>
    rw [new_transaction_eq hg r, Option.some_inj] at h
    injection h with h1 h2
    rw [← h2]
    exact ⟨rfl, rfl⟩

/-- Every state reachable by construction, record addition, mining, and
non-empty replacement keeps a non-empty chain (used for C7 and C2). -/
lemma reachNE_chain_ne {bc : Blockchain} (h : ReachNE bc) : bc.chain ≠ [] := by
  induction h with
  | base now => rw [init_eq]; simp
  | add r hprev hstep ih =>
    rw [(new_transaction_inv hstep).1]
    exact ih
  | mined now fuel miner hprev hstep ih =>
    obtain ⟨lb, p, _, _, _, _, hbc'⟩ := mine_success hstep
    subst hbc'
    simp
  | replaced now oc hne => exact hne

/-- The chain of a `MinedReach` state is non-empty and its links all
satisfy the `valid_chain` per-pair check. -/
lemma minedReach_invariant {bc : Blockchain} (h : MinedReach bc) :
    bc.chain ≠ [] ∧ List.Chain' chainR bc.chain := by
  induction h with
  | base now =>
    rw [init_eq]
    exact ⟨by simp, by simp⟩
  | step now fuel miner hprev hstep ih =>
    obtain ⟨hne, hchain⟩ := ih
    obtain ⟨lb, p, hlb, hpow, hvp, hres, hbc'⟩ := mine_success hstep
    subst hbc'
    refine ⟨by simp, ?_⟩
    rw [List.chain'_append]
    refine ⟨hchain, by simp, ?_⟩
    intro x hx y hy
    rw [last_block] at hlb
    rw [hlb] at hx
    simp only [Option.mem_def, Option.some_inj] at hx
    simp only [List.head?_cons, Option.mem_def, Option.some_inj] at hy
    subst hx
    subst hy
    exact ⟨rfl, hvp⟩

/-! ## Claim theorems -/

/-- C9: `fromchain` (the spec's `replace_chain`) returns a ledger whose
chain is exactly the supplied chain — full overwrite, no merge, no
validation — with an empty pending batch, and `full_chain` then reports
that chain and its length, not the genesis-only chain of the fresh
construction. -/
theorem fromchain_overwrites (now : Nat) (other_chain : List Block) :
    (fromchain now other_chain).chain = other_chain ∧
    (fromchain now other_chain).file = [] ∧
    full_chain (fromchain now other_chain) = (other_chain, other_chain.length) :=
  ⟨rfl, rfl, rfl⟩

/-- C10: `valid_proof` factors through the separator-free decimal
concatenation of its two arguments — pairs with equal concatenations are
indistinguishable to the predicate. -/
theorem valid_proof_factors {a b c d : Int}
    (h : toString a ++ toString b = toString c ++ toString d) :
    valid_proof a b = valid_proof c d := by
  unfold valid_proof
  rw [h]

theorem valid_proof_factors_witness :
    toString (1 : Int) ++ toString (23 : Int) = toString (12 : Int) ++ toString (3 : Int) ∧
    valid_proof 1 23 = valid_proof 12 3 :=
  ⟨by decide, valid_proof_factors (by decide)⟩

/-- C4: `valid_proof last_proof proof` returns true exactly when the first
four hex characters of the lowercase hex-encoded SHA-256 digest of the
UTF-8 bytes of the decimal texts of the two integers, concatenated with
no separator, equal `"0000"` (the spec-side reading
`spec_hash_prefix_ok`). -/
theorem valid_proof_iff_spec (last_proof proof : Int) :
    valid_proof last_proof proof = true ↔ spec_hash_prefix_ok last_proof proof := by
  unfold valid_proof spec_hash_prefix_ok
  rw [beq_iff_eq, String.take_eq]
  constructor
  · intro h
    have := congrArg String.data h
    simpa using this
  · intro h
    apply String.ext
    simpa using h

/-- C3: when some non-negative integer satisfies the predicate for
`last_proof` (and the fuel window covers one such), `proof_of_work`
returns, and returns the least non-negative integer satisfying
`valid_proof`; in particular the returned proof satisfies the
predicate. -/
theorem proof_of_work_least {last_proof p0 : Int} {fuel : Nat}
    (h0 : 0 ≤ p0) (hv : valid_proof last_proof p0 = true) (hf : p0 < (fuel : Int)) :
    ∃ p, proof_of_work last_proof fuel = some p ∧
      valid_proof last_proof p = true ∧ 0 ≤ p ∧ p ≤ p0 ∧
      ∀ q : Int, 0 ≤ q → q < p → valid_proof last_proof q = false := by
  obtain ⟨p, hp⟩ := proof_of_work_go_complete hv fuel 0 h0 (by omega)
  obtain ⟨h1, h2, h3⟩ := proof_of_work_go_sound hp
  refine ⟨p, hp, h1, h2, ?_, fun q hq1 hq2 => h3 q hq1 hq2⟩
  by_contra hlt
  push_neg at hlt
  simp [h3 p0 h0 hlt] at hv

theorem proof_of_work_least_witness :
    (0 : Int) ≤ 2 ∧ valid_proof 30916 2 = true ∧ (2 : Int) < ((3 : Nat) : Int) ∧
    ∃ p, proof_of_work 30916 3 = some p ∧
      valid_proof 30916 p = true ∧ 0 ≤ p ∧ p ≤ 2 ∧
      ∀ q : Int, 0 ≤ q → q < p → valid_proof 30916 q = false :=
  ⟨by decide, by decide, by decide,
    proof_of_work_least (by decide) (by decide) (by decide)⟩

/-- C6: whenever `mine` returns, it returns the success result together
with the new block — the failure branch guarded by the defensive re-check
of `valid_proof` on the value `proof_of_work` just returned is
unreachable, because the scan only returns satisfying values. -/
theorem mine_never_fails {bc : Blockchain} {now fuel : Nat} {miner : Option String}
    {res : MineResult} {bc' : Blockchain}
    (h : mine bc now fuel miner = some (res, bc')) :
    res ≠ MineResult.failure ∧ ∃ blk, res = MineResult.success blk := by
  obtain ⟨lb, p, _, _, _, hres, _⟩ := mine_success h
  subst hres
  exact ⟨by simp, _, rfl⟩

theorem mine_never_fails_witness :
    mine seedChainC6 9 3 none
      = some (MineResult.success minedBlockC6, ⟨[seedBlockC6, minedBlockC6], []⟩) ∧
    MineResult.success minedBlockC6 ≠ MineResult.failure := by
  have h : mine seedChainC6 9 3 none
      = some (MineResult.success minedBlockC6, ⟨[seedBlockC6, minedBlockC6], []⟩) := by
    decide
  exact ⟨h, (mine_never_fails h).1⟩

/-- C1: starting from a fresh ledger, any sequence of `add_record` calls
followed by one `mine` either does not return (the proof-of-work scan
exceeds its fuel) or succeeds with a sealed block whose records are
exactly the added records in arrival order, leaving the pending batch
empty immediately after the mine (no miner label, so before any credit
record). -/
theorem mine_seals_added_records (now : Nat) (recs : List Record) (now2 fuel : Nat) :
    (addAll (Blockchain.init now) recs).bind (fun bc1 => mine bc1 now2 fuel none) = none ∨
    ∃ blk bc2,
      (addAll (Blockchain.init now) recs).bind (fun bc1 => mine bc1 now2 fuel none) =
        some (MineResult.success blk, bc2) ∧
      blk.file = recs ∧ bc2.file = [] := by
  have hadd : addAll (Blockchain.init now) recs
      = some ⟨[⟨1, now, [], 2, "1"⟩], recs⟩ := by
    rw [init_eq]
    simpa using addAll_eq recs ⟨[⟨1, now, [], 2, "1"⟩], []⟩ (by simp)
  rw [hadd]
  simp only [Option.some_bind]
  cases hpow : proof_of_work 2 fuel with
  | none =>
    left
    simp [mine, last_block, hpow]
  | some p =>
    right
    refine ⟨_, _, mine_eq
      (show last_block (⟨[⟨1, now, [], 2, "1"⟩], recs⟩ : Blockchain)
          = some ⟨1, now, [], 2, "1"⟩ from rfl)
      hpow now2 none, rfl, rfl⟩

/-- C2: a chain produced solely by repeated (returning) `mine` calls on a
fresh ledger always satisfies `valid_chain = true`: every block after the
first carries the hash of its predecessor as `previous_hash` and a proof
satisfying `valid_proof` against the predecessor's proof. -/
theorem mined_chain_always_valid {bc : Blockchain} (h : MinedReach bc) :
    valid_chain bc = some true ∧
      ∀ (i : Nat) (bi bj : Block), bc.chain[i]? = some bi →
        bc.chain[i + 1]? = some bj →
        bj.previous_hash = hash bi ∧ valid_proof bi.proof bj.proof = true := by
  obtain ⟨hne, hchain⟩ := minedReach_invariant h
  obtain ⟨b, l, hbl⟩ : ∃ b l, bc.chain = b :: l := by
    cases hc : bc.chain with
    | nil => exact absurd hc hne
    | cons b l => exact ⟨b, l, rfl⟩
  exact ⟨(valid_chain_eq_some_true_iff hbl).mpr hchain,
    fun i bi bj hbi hbj => chain'_rel hchain i bi bj hbi hbj⟩

theorem mined_chain_always_valid_witness :
    valid_chain (Blockchain.init 0) = some true :=
  (mined_chain_always_valid (MinedReach.base 0)).1

/-- C7 counterexample: `replace_chain` (the classmethod `fromchain`) is a
public operation and accepts the empty chain, producing a reachable
ledger whose chain is empty — so the chain is not "never empty for any
argument chain", and reading the last block fails there. -/
theorem empty_chain_reachable_counterexample :
    Reach (fromchain 0 []) ∧ (fromchain 0 []).chain = [] ∧
      last_block (fromchain 0 []) = none :=
  ⟨Reach.replaced 0 [], rfl, rfl⟩

/-- C7 (amended): for every ledger obtained by construction followed by
any sequence of `add_record`, `mine`, and `replace_chain` whose argument
chains are all non-empty, the chain is never empty, so reading the last
block cannot fail. -/
theorem chain_never_empty {bc : Blockchain} (h : ReachNE bc) :
    bc.chain ≠ [] ∧ ∃ lb, last_block bc = some lb := by
  have hne := reachNE_chain_ne h
  exact ⟨hne, Option.isSome_iff_exists.mp (List.getLast?_isSome.mpr hne)⟩

theorem chain_never_empty_witness :
    (Blockchain.init 0).chain ≠ [] ∧ ∃ lb, last_block (Blockchain.init 0) = some lb :=
  chain_never_empty (ReachNE.base 0)

/-- C5 counterexample: a valid two-block chain in which the final block's
`records` are mutated to a different value while `valid_chain` still
returns true — `valid_chain` never hashes the final block, so a mutation
of the last block's records is not detected, refuting the claim that
mutating any single block's records yields false. -/
theorem tamper_undetected_counterexample :
    valid_chain ⟨[tamperB0, tamperB1], []⟩ = some true ∧
    2 ≤ ([tamperB0, tamperB1] : List Block).length ∧
    tamperB1'.file ≠ tamperB1.file ∧
    tamperB1'.index = tamperB1.index ∧
    tamperB1'.timestamp = tamperB1.timestamp ∧
    tamperB1'.proof = tamperB1.proof ∧
    tamperB1'.previous_hash = tamperB1.previous_hash ∧
    List.set [tamperB0, tamperB1] 1 tamperB1' = [tamperB0, tamperB1'] ∧
    valid_chain ⟨[tamperB0, tamperB1'], []⟩ = some true := by
  refine ⟨by decide, by decide, by decide, rfl, rfl, rfl, rfl, rfl, by decide⟩

/-- C5 (amended): on a valid chain of at least two blocks, replacing a
single non-final block by any block with a different hash — which any
mutation of `records`, `proof`, or `previous_hash` produces absent a
SHA-256 collision — makes `valid_chain` return false, and so does
changing the final block's `previous_hash`; a mutation of the final
block's `records` (or of its `proof` to another satisfying value) escapes
detection, as the counterexample shows. -/
theorem tamper_detected :
    (∀ (bc : Blockchain) (i : Nat) (b' bi : Block),
        valid_chain bc = some true → bc.chain[i]? = some bi →
        i + 1 < bc.chain.length → hash b' ≠ hash bi →
        valid_chain ⟨bc.chain.set i b', bc.file⟩ = some false) ∧
    (∀ (bc : Blockchain) (bi : Block) (v : String),
        valid_chain bc = some true →
        bc.chain[bc.chain.length - 1]? = some bi →
        2 ≤ bc.chain.length → v ≠ bi.previous_hash →
        valid_chain ⟨bc.chain.set (bc.chain.length - 1)
            ⟨bi.index, bi.timestamp, bi.file, bi.proof, v⟩, bc.file⟩ = some false) := by
  constructor
  · intro bc i b' bi hvalid hbi hlen hhash
    obtain ⟨b, l, hbl⟩ : ∃ b l, bc.chain = b :: l := by
      cases hc : bc.chain with
      | nil => rw [hc] at hlen; simp at hlen
      | cons b l => exact ⟨b, l, rfl⟩
    have hchain : List.Chain' chainR bc.chain :=
      (valid_chain_eq_some_true_iff hbl).mp hvalid
    obtain ⟨c, m, hcm⟩ : ∃ c m, bc.chain.set i b' = c :: m := by
      cases hs : bc.chain.set i b' with
      | nil =>
        have hlen0 := congrArg List.length hs
        rw [List.length_set] at hlen0
        simp only [List.length_nil] at hlen0
        omega
      | cons c m => exact ⟨c, m, rfl⟩
    rw [valid_chain_eq_some_false_iff hcm]
    intro hC'
    obtain ⟨bj, hbj⟩ : ∃ bj, bc.chain[i + 1]? = some bj :=
      ⟨_, List.getElem?_eq_getElem hlen⟩
    have hset_i : (bc.chain.set i b')[i]? = some b' :=
      List.getElem?_set_self (by omega)
    have hset_j : (bc.chain.set i b')[i + 1]? = bc.chain[i + 1]? :=
      List.getElem?_set_ne (by omega)
    have h1 := chain'_rel hC' i b' bj hset_i (hset_j.trans hbj)
    have h2 := chain'_rel hchain i bi bj hbi hbj
    exact hhash (h1.1.symm.trans h2.1)
  · intro bc bi v hvalid hbi hlen hv
    obtain ⟨b, l, hbl⟩ : ∃ b l, bc.chain = b :: l := by
      cases hc : bc.chain with
      | nil => rw [hc] at hlen; simp at hlen
      | cons b l => exact ⟨b, l, rfl⟩
    have hchain : List.Chain' chainR bc.chain :=
      (valid_chain_eq_some_true_iff hbl).mp hvalid
    obtain ⟨bp, hbp⟩ : ∃ bp, bc.chain[bc.chain.length - 2]? = some bp :=
      ⟨_, List.getElem?_eq_getElem (by omega)⟩
    have hstep : bc.chain.length - 2 + 1 = bc.chain.length - 1 := by omega
    have h2 := chain'_rel hchain (bc.chain.length - 2) bp bi hbp
      (by rw [hstep]; exact hbi)
    obtain ⟨c, m, hcm⟩ : ∃ c m,
        bc.chain.set (bc.chain.length - 1)
          ⟨bi.index, bi.timestamp, bi.file, bi.proof, v⟩ = c :: m := by
      cases hs : bc.chain.set (bc.chain.length - 1)
          ⟨bi.index, bi.timestamp, bi.file, bi.proof, v⟩ with
      | nil =>
        have hlen0 := congrArg List.length hs
        rw [List.length_set] at hlen0
        simp only [List.length_nil] at hlen0
        omega
      | cons c m => exact ⟨c, m, rfl⟩
    rw [valid_chain_eq_some_false_iff hcm]
    intro hC'
    have hset_j : (bc.chain.set (bc.chain.length - 1)
        ⟨bi.index, bi.timestamp, bi.file, bi.proof, v⟩)[bc.chain.length - 1]?
          = some ⟨bi.index, bi.timestamp, bi.file, bi.proof, v⟩ :=
      List.getElem?_set_self (by omega)
    have hset_p : (bc.chain.set (bc.chain.length - 1)
        ⟨bi.index, bi.timestamp, bi.file, bi.proof, v⟩)[bc.chain.length - 2]?
          = bc.chain[bc.chain.length - 2]? :=
      List.getElem?_set_ne (by omega)
    have h3 := chain'_rel hC' (bc.chain.length - 2) bp
      ⟨bi.index, bi.timestamp, bi.file, bi.proof, v⟩
      (hset_p.trans hbp) (by rw [hstep]; exact hset_j)
    exact hv (h3.1.trans h2.1.symm)

theorem tamper_detected_witness :
    valid_chain ⟨[tamperB0, tamperB1], []⟩ = some true ∧
    ([tamperB0, tamperB1] : List Block)[0]? = some tamperB0 ∧
    0 + 1 < ([tamperB0, tamperB1] : List Block).length ∧
    hash tamperMut ≠ hash tamperB0 ∧
    valid_chain ⟨([tamperB0, tamperB1] : List Block).set 0 tamperMut, []⟩ = some false := by
  have h1 : valid_chain ⟨[tamperB0, tamperB1], []⟩ = some true := by decide
  have h4 : hash tamperMut ≠ hash tamperB0 := by decide
  exact ⟨h1, by decide, by decide, h4,
    tamper_detected.1 ⟨[tamperB0, tamperB1], []⟩ 0 tamperMut tamperB0 h1 (by decide)
      (by decide) h4⟩

/-- C8 counterexample: a supplied empty-string miner label is falsy in
Python (`if miner:`), so a successful `mine` with `miner_label = ""`
appends no credit record — the pending batch afterwards is empty rather
than holding one synthetic credit record. -/
theorem miner_credit_empty_label_counterexample :
    mine seedChainC8 4 3 (some "")
      = some (MineResult.success minedBlockC8, ⟨[seedBlockC8, minedBlockC8], []⟩) ∧
    ([] : List Record) ≠ [minerRecord ""] :=
  ⟨by decide, by decide⟩

/-- Concrete evaluation of a successful labelled mine on the seeded
ledger, used by the C8 witness. -/
lemma mine_alice_eq :
    mine seedChainC8 4 3 (some "alice")
      = some (MineResult.success minedBlockC8,
              ⟨[seedBlockC8, minedBlockC8], [minerRecord "alice"]⟩) := by
  decide

attribute [irreducible] hash valid_proof sha256hex strBytes proof_of_work_go

/-- C8 (amended): for every supplied non-empty miner label, a successful
`mine` leaves exactly the one synthetic credit record in the new pending
batch while the sealed block carries the pre-mine pending batch (the
credit is a post-seal effect), and the credit then appears first in the
next sealed block's records after any further `add_record` calls; with no
label supplied the pending batch is empty immediately after `mine`.  (A
supplied empty-string label is falsy in Python and behaves like no
label.) -/
theorem miner_credit_next_batch :
    (∀ (bc : Blockchain) (now fuel : Nat) (m : String) (blk : Block) (bc2 : Blockchain),
        m ≠ "" →
        mine bc now fuel (some m) = some (MineResult.success blk, bc2) →
        bc2.file = [minerRecord m] ∧ blk.file = bc.file ∧
        ∀ (recs : List Record) (bc3 : Blockchain) (now2 fuel2 : Nat)
          (miner2 : Option String) (blk2 : Block) (bc4 : Blockchain),
            addAll bc2 recs = some bc3 →
            mine bc3 now2 fuel2 miner2 = some (MineResult.success blk2, bc4) →
            blk2.file = minerRecord m :: recs) ∧
    (∀ (bc : Blockchain) (now fuel : Nat) (blk : Block) (bc2 : Blockchain),
        mine bc now fuel none = some (MineResult.success blk, bc2) →
        bc2.file = []) := by
  constructor
  · intro bc now fuel m blk bc2 hm hmine
    obtain ⟨lb, p, hlb, hpow, hvp, hres, hbc2⟩ := mine_success hmine
    injection hres with hblk
    subst hblk
    subst hbc2
    refine ⟨by simp [creditFile, hm], rfl, ?_⟩
    intro recs bc3 now2 fuel2 miner2 blk2 bc4 hadd hmine2
    obtain ⟨hch3, hf3⟩ := addAll_spec hadd
    obtain ⟨lb2, p2, hlb2, hpow2, hvp2, hres2, hbc4⟩ := mine_success hmine2
    injection hres2 with hblk2
    subst hblk2
    rw [hf3]
    simp [creditFile, hm]
  · intro bc now fuel blk bc2 hmine
    obtain ⟨lb, p, _, _, _, _, hbc2⟩ := mine_success hmine
    subst hbc2
    rfl

theorem miner_credit_next_batch_witness :
    ("alice" : String) ≠ "" ∧
    mine seedChainC8 4 3 (some "alice")
      = some (MineResult.success minedBlockC8,
              ⟨[seedBlockC8, minedBlockC8], [minerRecord "alice"]⟩) ∧
    (⟨[seedBlockC8, minedBlockC8], [minerRecord "alice"]⟩ : Blockchain).file
      = [minerRecord "alice"] ∧
    minedBlockC8.file = seedChainC8.file := by
  have hall := miner_credit_next_batch.1 seedChainC8 4 3 "alice" minedBlockC8
    ⟨[seedBlockC8, minedBlockC8], [minerRecord "alice"]⟩ (by decide) mine_alice_eq
  exact ⟨by decide, mine_alice_eq, hall.1, hall.2.1⟩

end Blocklib
